import Mathlib

/-!
Verification development for the word-frequency pipeline in `src/main.cpp`
(repository `cpp20-ranges-word-freq`).

The program reads whitespace-delimited tokens from standard input, filters
them with the `is_alpha_word` predicate, lowercases the survivors
(`to_lower_case`), counts occurrences of each distinct word
(`count_occurrences`, an unordered map), flips the map entries into
(count, word) pairs, sorts those pairs by descending count
(`compare_counts`), then for each distinct count (descending, taken from
the `just_counts` set) locates the contiguous run of pairs with that count
and sorts the run by ascending word (`compare_words`), and finally prints
each pair as one line (`print_collection`).  A diagnostic pass sorts the
full word sequence and removes adjacent duplicates.

Words and tokens are modelled as lists of characters; machine strings are
byte strings of ASCII characters in every reachable state, so the
codepoint order on `List Char` coincides with the byte-wise order used by
`std::string::compare`.  `unsigned int` counts are modelled as `Nat`: the
counts are bounded by the input length, and no arithmetic in the program
can overflow before memory is exhausted, so no modular reduction arises.
`std::sort` (unstable, any comparator-sorted permutation) is modelled by
`List.insertionSort`, one permitted outcome; the main loop lemma below is
proved for an arbitrary comparator-sorted permutation, so this choice is
immaterial to every stated property.
-/

/-- Model of `std::isalpha` under the default "C" locale: true exactly on
the ASCII letters. -/
def isalpha (c : Char) : Bool :=
  ('A' ≤ c && c ≤ 'Z') || ('a' ≤ c && c ≤ 'z')

/-- The inner lambda `other_allowed` of `is_alpha_word` (main.cpp:146-147):
when the first character is `#` nothing extra is allowed, otherwise the
characters `-` and `_` are allowed. -/
def other_allowed (first_char : Char) : Char → Bool :=
  if first_char = '#' then (fun _ => false) else (fun c => c = '-' || c = '_')

/-- The filtering predicate `is_alpha_word` (main.cpp:143-153).  The C++
lambda reads `word.front()`, loops over `word.substr(1)` returning `false`
whenever a character is neither alphabetic nor `other_allowed`, and finally
returns `!(isalpha(first) == 0 && first != '#' && first != '_')`.  Stream
tokens are never empty; the `[]` case (undefined behaviour in C++) is set
to `false` and is never relied upon. -/
def is_alpha_word (word : List Char) : Bool :=
  match word with
  | [] => false
  | first_char :: subwrd =>
    (subwrd.all fun c => isalpha c || other_allowed first_char c) &&
      !(!(isalpha first_char) && !(first_char = '#') && !(first_char = '_'))

/-- Model of `::tolower` under the "C" locale on one character. -/
def tolower (c : Char) : Char :=
  if 'A' ≤ c && c ≤ 'Z' then Char.ofNat (c.toNat + 32) else c

/-- `to_lower_case` (main.cpp:155-159): copies the word, lowercasing every
character. -/
def to_lower_case (word : List Char) : List Char :=
  word.map tolower

/-- Stage 1 of the pipeline (main.cpp:182-187): the istream view yields the
tokens in input order, `views::filter` keeps those satisfying
`is_alpha_word`, `views::transform` lowercases them, and
`append_range` pushes each resulting word onto the `words` vector in
order.  Modelled as the corresponding left fold over the token list. -/
def words_of (tokens : List (List Char)) : List (List Char) :=
  tokens.foldl (fun acc t => if is_alpha_word t then acc ++ [to_lower_case t] else acc) []

/-- Convenience: the character list underlying a string literal. -/
def str (s : String) : List Char :=
  s.data

example : is_alpha_word (str "abc-123") = false := by decide
example : is_alpha_word (str "abc-def") = true := by decide
example : is_alpha_word (str "#define") = true := by decide
example : is_alpha_word (str "-abc") = false := by decide
example : is_alpha_word (str "_private") = true := by decide
example : is_alpha_word (str "#a-b") = false := by decide
example : is_alpha_word (str "#") = true := by decide
example : to_lower_case (str "FoX") = str "fox" := by decide
example : words_of [str "The", str "the", str "fox", str "FOX", str "fox"] =
    [str "the", str "the", str "fox", str "fox", str "fox"] := by decide

/-! ## Stage 2: the counter (`count_occurrences`, main.cpp:32-44)

`std::unordered_map` is modelled as an association list with the map
operations `map_find` (lookup) and `map_store` (`counts[elem] = v`):
`map_store` overwrites the entry holding the key if present and otherwise
appends a fresh entry.  The hash map imposes no enumeration order; the
order-independence of everything downstream is proved as claim C6. -/

/-- `counts.find(elem)`: the value stored under a key, if any. -/
def map_find : List (List Char × Nat) → List Char → Option Nat
  | [], _ => none
  | (k, v) :: rest, w => if k = w then some v else map_find rest w

/-- `counts[elem] = v`: overwrite the entry for the key, or append one. -/
def map_store : List (List Char × Nat) → List Char → Nat → List (List Char × Nat)
  | [], w, v => [(w, v)]
  | (k, x) :: rest, w, v =>
    if k = w then (w, v) :: rest else (k, x) :: map_store rest w v

/-- Loop body of `count_occurrences` (main.cpp:35-42): `new_count`
starts at 1, the current count is added when the key is present, and the
entry is stored back. -/
def count_step (counts : List (List Char × Nat)) (elem : List Char) :
    List (List Char × Nat) :=
  let new_count : Nat :=
    match map_find counts elem with
    | some current_count => 1 + current_count
    | none => 1
  map_store counts elem new_count

/-- `count_occurrences` (main.cpp:32-44): fold `count_step` over the word
collection, starting from the empty map. -/
def count_occurrences (collection : List (List Char)) : List (List Char × Nat) :=
  collection.foldl count_step []

/-! ## Stage 3: flipping, sorting and the grouped re-sort
(main.cpp:160-235) -/

/-- `count_pair_t` (main.cpp:119): a word count paired with the word. -/
abbrev count_pair_t : Type := Nat × List Char

/-- `flip_pair` (main.cpp:161-163). -/
def flip_pair (entry : List Char × Nat) : count_pair_t :=
  (entry.2, entry.1)

/-- `compare_counts` (main.cpp:165-167): strict comparator
`x.first > y.first` handed to the first `std::ranges::sort`. -/
def compare_counts (x y : count_pair_t) : Prop :=
  y.1 < x.1

/-- `compare_words` (main.cpp:169-171): strict comparator
`x.second.compare(y.second) < 0` handed to the per-run sort. -/
def compare_words (x y : count_pair_t) : Prop :=
  x.2 < y.2

/-- `found_pred` (main.cpp:173): two pairs match when their counts are
equal.  The search needle always carries the count under scrutiny. -/
def found_pred (arg1 arg2 : count_pair_t) : Prop :=
  arg1.1 = arg2.1

/-- A range is sorted for the strict comparator `compare_counts` exactly
when consecutive elements satisfy its non-strict reflexive closure: count
of the later pair at most the count of the earlier one. -/
def count_ge (x y : count_pair_t) : Prop :=
  y.1 ≤ x.1

/-- Non-strict closure of `compare_words`: word of the earlier pair at
most the word of the later one (codepoint order on `List Char`). -/
def word_le (x y : count_pair_t) : Prop :=
  x.2 ≤ y.2

/-- The two-key order "count descending, then word ascending" that §4.3 of
the spec names as the observably equivalent single-sort comparator. -/
def two_key_le (x y : count_pair_t) : Prop :=
  y.1 < x.1 ∨ (x.1 = y.1 ∧ x.2 ≤ y.2)

instance : DecidableRel count_ge :=
  fun x y => decidable_of_iff (y.1 ≤ x.1) Iff.rfl

instance : DecidableRel word_le :=
  fun x y => decidable_of_iff (x.2 ≤ y.2) Iff.rfl

instance : DecidableRel two_key_le :=
  fun x y => decidable_of_iff (y.1 < x.1 ∨ (x.1 = y.1 ∧ x.2 ≤ y.2)) Iff.rfl

instance : IsTotal count_pair_t count_ge :=
  ⟨fun a b => le_total b.1 a.1⟩

instance : IsTrans count_pair_t count_ge :=
  ⟨fun _ _ _ hab hbc => le_trans hbc hab⟩

instance : IsTotal count_pair_t word_le :=
  ⟨fun a b => le_total a.2 b.2⟩

instance : IsTrans count_pair_t word_le :=
  ⟨fun _ _ _ hab hbc => le_trans hab hbc⟩

instance : IsTotal count_pair_t two_key_le := by
  constructor
  intro a b
  rcases lt_trichotomy a.1 b.1 with h | h | h
  · exact Or.inr (Or.inl h)
  · rcases le_total a.2 b.2 with hw | hw
    · exact Or.inl (Or.inr ⟨h, hw⟩)
    · exact Or.inr (Or.inr ⟨h.symm, hw⟩)
  · exact Or.inl (Or.inl h)

instance : IsTrans count_pair_t two_key_le := by
  constructor
  rintro a b c (hab | ⟨hab, hw⟩) (hbc | ⟨hbc, hw2⟩)
  · exact Or.inl (hbc.trans hab)
  · exact Or.inl (hbc ▸ hab)
  · exact Or.inl (hab ▸ hbc)
  · exact Or.inr ⟨hab.trans hbc, hw.trans hw2⟩

instance : IsAntisymm count_pair_t two_key_le := by
  constructor
  rintro ⟨ca, wa⟩ ⟨cb, wb⟩ (hab | ⟨hab, hw⟩) (hba | ⟨hba, hw2⟩)
  · exact absurd (hab.trans hba) (lt_irrefl _)
  · exact absurd hab (by simp at hba; omega)
  · exact absurd hba (by simp at hab; omega)
  · simp only [Prod.mk.injEq]
    exact ⟨hab, le_antisymm hw hw2⟩

/-- Index of the first pair at or after position `current` whose count
matches `n`: `std::find_first_of(current, very_end, needle, found_pred)`
(main.cpp:223) with the singleton needle `the_search_item` holding `n`.
`none` models the iterator `very_end`. -/
def find_first_of : List count_pair_t → Nat → Option Nat
  | [], _ => none
  | p :: rest, n =>
    if p.1 = n then some 0 else (find_first_of rest n).map (· + 1)

/-- `find_first_of` started at iterator position `current`. -/
def find_first_from (pairs : List count_pair_t) (current n : Nat) : Option Nat :=
  (find_first_of (pairs.drop current) n).map (current + ·)

/-- Index of the last pair whose count matches `n`:
`std::find_end(current, very_end, needle, found_pred)` (main.cpp:225) with
a singleton needle finds the last matching position. -/
def find_last_of : List count_pair_t → Nat → Option Nat
  | [], _ => none
  | p :: rest, n =>
    match find_last_of rest n with
    | some k => some (k + 1)
    | none => if p.1 = n then some 0 else none

/-- `find_last_of` started at iterator position `current`. -/
def find_end_from (pairs : List count_pair_t) (current n : Nat) : Option Nat :=
  (find_last_of (pairs.drop current) n).map (current + ·)

/-- `std::ranges::sort(sub_rng, compare_words)` (main.cpp:227) on the
iterator range `[i, stop)` of the vector: the segment is sorted by
ascending word, the rest of the vector is untouched. -/
def sort_segment (pairs : List count_pair_t) (i stop : Nat) : List count_pair_t :=
  pairs.take i ++ List.insertionSort word_le ((pairs.drop i).take (stop - i)) ++
    pairs.drop stop

/-- The grouped re-sort loop (main.cpp:220-235).  One iteration per
element of `just_counts_rng` (the distinct counts, descending):
`check_count` is incremented at the top; `find_first_of` repositions
`current` at the first pair with the current count and a failed search
breaks out of the loop; `find_end` locates the last pair with that count;
the run between them is sorted by word (`sub_rng` extends to `very_end`
when `find_end` fails, and `current` is only advanced when it does not);
`sub_rng_count` counts the sorted runs.  Returns the final vector and the
two counters. -/
def group_sort_loop :
    List Nat → List count_pair_t → Nat → Nat → Nat → List count_pair_t × Nat × Nat
  | [], pairs, _, check_count, sub_rng_count => (pairs, check_count, sub_rng_count)
  | n :: rest, pairs, current, check_count, sub_rng_count =>
    match find_first_from pairs current n with
    | none => (pairs, check_count + 1, sub_rng_count)
    | some i =>
      match find_end_from pairs i n with
      | none =>
        group_sort_loop rest (sort_segment pairs i pairs.length) i
          (check_count + 1) (sub_rng_count + 1)
      | some j =>
        group_sort_loop rest (sort_segment pairs i (j + 1)) j
          (check_count + 1) (sub_rng_count + 1)

/-- The `just_counts` set (main.cpp:198-203): an `std::set` collecting,
via the side effect of `collect_just_counts` inside the `rng1` filter,
every count that flows into `count_pairs`.  An `std::set` enumerates in
ascending order. -/
def just_counts (pairs : List count_pair_t) : List Nat :=
  List.insertionSort (fun a b => a ≤ b) (pairs.map Prod.fst).dedup

/-- `just_counts_rng = std::views::reverse(just_counts)` (main.cpp:213):
the distinct counts in descending order. -/
def just_counts_rng (pairs : List count_pair_t) : List Nat :=
  (just_counts pairs).reverse

/-- Stage 3 in full (main.cpp:209-235): sort `count_pairs` by descending
count, then run the grouped re-sort loop over the distinct counts.
Returns the re-sorted vector together with the final `check_count` and
`sub_rng_count`. -/
def grouped_sort (pairs : List count_pair_t) : List count_pair_t × Nat × Nat :=
  group_sort_loop (just_counts_rng pairs) (List.insertionSort count_ge pairs) 0 0 0

/-! ## Stage 4: the reporter (main.cpp:132-138 and 246-256) -/

/-- `print_collection` (main.cpp:132-138): each pair becomes the output
line `<count>: <word>` (characters of the decimal count, a colon, a
space, the word). -/
def print_collection (coll : List count_pair_t) : List (List Char) :=
  coll.map fun elem => Nat.toDigits 10 elem.1 ++ (':' :: ' ' :: elem.2)

/-- `std::ranges::unique` on a vector followed by `erase`
(main.cpp:252-253): remove adjacent duplicates, keeping one element of
each run of equal elements (the elements of a run are equal, so which
representative survives is immaterial). -/
def dedup_adjacent : List (List Char) → List (List Char)
  | [] => []
  | [a] => [a]
  | a :: b :: rest =>
    if a = b then dedup_adjacent (b :: rest) else a :: dedup_adjacent (b :: rest)

/-- The diagnostic word list (main.cpp:250-256): sort the full normalized
word sequence lexically, drop adjacent duplicates, print one word per
line. -/
def diagnostic_words (tokens : List (List Char)) : List (List Char) :=
  dedup_adjacent (List.insertionSort (fun a b => a ≤ b) (words_of tokens))

/-! ## The whole program -/

/-- The word-to-count map the program builds from its token stream
(main.cpp:191). -/
def counts_map (tokens : List (List Char)) : List (List Char × Nat) :=
  count_occurrences (words_of tokens)

/-- `count_pairs` just before the sorting stage (main.cpp:196-207): the
map entries flipped into (count, word) pairs. -/
def count_pairs_of (tokens : List (List Char)) : List count_pair_t :=
  (counts_map tokens).map flip_pair

/-- The final contents of the `count_pairs` vector, as printed. -/
def primary_pairs (tokens : List (List Char)) : List count_pair_t :=
  (grouped_sort (count_pairs_of tokens)).1

/-- The primary (stdout) output: one line per pair (main.cpp:247). -/
def primary_output (tokens : List (List Char)) : List (List Char) :=
  print_collection (primary_pairs tokens)

/-- The downstream pipeline from an enumeration of the word-to-count map
to the primary output.  The program computes
`report_from_map (counts_map tokens)`; the enumeration order of the
unordered map is unspecified, which claim C6 addresses. -/
def report_from_map (m : List (List Char × Nat)) : List (List Char) :=
  print_collection ((grouped_sort (m.map flip_pair)).1)

/-- `main` (main.cpp:140-257): primary output plus the exit status.  The
function falls off the end of `main`, so the status is 0 on every run that
reaches end-of-input. -/
def main_result (tokens : List (List Char)) : List (List Char) × Nat :=
  (primary_output tokens, 0)

/-- A tiny concrete token stream used to instantiate several theorems. -/
def demo_tokens : List (List Char) :=
  [str "b", str "a", str "b"]

/-! ## Lemmas on stage 1 -/

/-- Unrolling the `words` accumulation: the left fold that models
`append_range` over the filtered, lowercased token view produces the
filtered-then-mapped token list after any prefix already accumulated. -/
lemma words_of_foldl (tokens : List (List Char)) :
    ∀ acc : List (List Char),
      tokens.foldl
        (fun acc t => if is_alpha_word t then acc ++ [to_lower_case t] else acc) acc =
        acc ++ (tokens.filter is_alpha_word).map to_lower_case := by
  induction tokens with
  | nil => intro acc; simp
  | cons t ts ih =>
    intro acc
    by_cases h : is_alpha_word t
    · simp only [List.foldl_cons, h, if_true, ih, List.filter_cons, List.map_cons,
        List.append_assoc, List.singleton_append]
    · simp [List.foldl_cons, h, ih, List.filter_cons]

/-- The emitted word sequence is the accepted tokens, in input order,
each lowercased. -/
lemma words_of_eq (tokens : List (List Char)) :
    words_of tokens = (tokens.filter is_alpha_word).map to_lower_case := by
  simpa using words_of_foldl tokens []

/-- The source's `::tolower` model agrees with Lean's independent
`Char.toLower` (both lowercase exactly the ASCII uppercase letters by
adding 32). -/
lemma tolower_eq_toLower (c : Char) : tolower c = Char.toLower c := by
  unfold tolower Char.toLower
  have hA : ('A' ≤ c) = decide (65 ≤ c.toNat) := by
    simp [Char.le_def, Char.toNat, UInt32.le_def, BitVec.le_def, UInt32.toNat]
  have hZ : (c ≤ 'Z') = decide (c.toNat ≤ 90) := by
    simp [Char.le_def, Char.toNat, UInt32.le_def, BitVec.le_def, UInt32.toNat]
  by_cases h1 : 65 ≤ c.toNat <;> by_cases h2 : c.toNat ≤ 90 <;>
    simp [hA, hZ, h1, h2, Char.toNat]

/-- The `std::isalpha` model agrees with Lean's independent
`Char.isAlpha` ASCII-letter test. -/
lemma isalpha_eq_isAlpha (c : Char) : isalpha c = c.isAlpha := by
  unfold isalpha Char.isAlpha Char.isUpper Char.isLower
  rfl

/-- **C3.** For every non-empty token, `is_alpha_word` accepts it exactly
when the first character is ASCII alphabetic, an underscore, or a hash
mark, and every later character is ASCII alphabetic or is a hyphen or
underscore, the latter exemption being disabled when the first character
is a hash mark; in particular "abc-123" and "-abc" are rejected while
"abc-def", "#define" and "_private" are accepted. -/
theorem C3_is_alpha_word_rule :
    (∀ (c0 : Char) (cs : List Char),
      is_alpha_word (c0 :: cs) = true ↔
        ((c0.isAlpha = true ∨ c0 = '_' ∨ c0 = '#') ∧
          ∀ c ∈ cs, c.isAlpha = true ∨ (¬c0 = '#' ∧ (c = '-' ∨ c = '_')))) ∧
    is_alpha_word (str "abc-123") = false ∧
    is_alpha_word (str "abc-def") = true ∧
    is_alpha_word (str "#define") = true ∧
    is_alpha_word (str "-abc") = false ∧
    is_alpha_word (str "_private") = true := by
  refine ⟨?_, by decide, by decide, by decide, by decide, by decide⟩
  intro c0 cs
  simp only [← isalpha_eq_isAlpha]
  by_cases h : c0 = '#'
  · subst h
    simp [is_alpha_word, other_allowed, List.all_eq_true]
  · simp [is_alpha_word, other_allowed, if_neg h, List.all_eq_true, h]
    tauto

/-- `Char.isUpper` tests exactly the ASCII uppercase codepoint range. -/
lemma isUpper_iff_toNat (c : Char) :
    c.isUpper = true ↔ (65 ≤ c.toNat ∧ c.toNat ≤ 90) := by
  simp [Char.isUpper, Char.toNat, UInt32.le_def, BitVec.le_def, UInt32.toNat,
    ge_iff_le]

/-- **C7.** The emitted word sequence is the accepted tokens, lowercased,
in input order; lowercasing maps every character through `tolower`, which
sends each ASCII uppercase letter to its lowercase equivalent (it agrees
with `Char.toLower`) and leaves every other character, letters and
non-letters alike, unchanged. -/
theorem C7_case_fold_in_input_order :
    (∀ tokens : List (List Char),
      words_of tokens = (tokens.filter is_alpha_word).map to_lower_case) ∧
    (∀ w : List Char, to_lower_case w = w.map tolower) ∧
    (∀ c : Char, c.isUpper = true → tolower c = Char.toLower c) ∧
    (∀ c : Char, ¬c.isUpper = true → tolower c = c) := by
  refine ⟨words_of_eq, fun _ => rfl, fun c _ => tolower_eq_toLower c, fun c hc => ?_⟩
  rw [isUpper_iff_toNat] at hc
  rw [tolower_eq_toLower]
  unfold Char.toLower
  simp only [ge_iff_le]
  rw [if_neg hc]

/-! ## Lemmas on stage 2: the counter -/

lemma map_find_store_self (m : List (List Char × Nat)) (w : List Char) (v : Nat) :
    map_find (map_store m w v) w = some v := by
  induction m with
  | nil => simp [map_store, map_find]
  | cons e rest ih =>
    obtain ⟨k, x⟩ := e
    by_cases h : k = w
    · simp [map_store, h, map_find]
    · simp [map_store, h, map_find, ih]

lemma map_find_store_ne (m : List (List Char × Nat)) (w : List Char) (v : Nat)
    (w' : List Char) (h : w' ≠ w) :
    map_find (map_store m w v) w' = map_find m w' := by
  induction m with
  | nil =>
    have hne : ¬(w = w') := fun he => h he.symm
    simp [map_store, map_find, hne]
  | cons e rest ih =>
    obtain ⟨k, x⟩ := e
    by_cases hk : k = w
    · subst hk
      have hne : ¬(k = w') := fun he => h he.symm
      simp [map_store, map_find, hne]
    · simp [map_store, hk, map_find, ih]

lemma mem_keys_map_store (m : List (List Char × Nat)) (w : List Char) (v : Nat)
    (a : List Char) :
    a ∈ (map_store m w v).map Prod.fst ↔ a ∈ m.map Prod.fst ∨ a = w := by
  induction m with
  | nil => simp [map_store]
  | cons e rest ih =>
    obtain ⟨k, x⟩ := e
    by_cases hk : k = w
    · subst hk
      simp [map_store]
      tauto
    · simp [map_store, hk, ih]
      tauto

lemma nodup_keys_map_store (m : List (List Char × Nat)) (w : List Char) (v : Nat)
    (h : (m.map Prod.fst).Nodup) : ((map_store m w v).map Prod.fst).Nodup := by
  induction m with
  | nil => simp [map_store]
  | cons e rest ih =>
    obtain ⟨k, x⟩ := e
    simp only [List.map_cons, List.nodup_cons] at h
    by_cases hk : k = w
    · subst hk
      simpa [map_store] using h
    · simp only [map_store, if_neg hk, List.map_cons, List.nodup_cons]
      refine ⟨?_, ih h.2⟩
      rw [mem_keys_map_store]
      rintro (hc | hc)
      · exact h.1 hc
      · exact hk hc

/-- The central loop invariant of `count_occurrences`: after folding a
word list into a map, a lookup returns the old count plus the number of
occurrences in the list (or just the occurrences when the key was
absent, and nothing when there are none). -/
lemma count_step_foldl_find (l : List (List Char)) :
    ∀ (m : List (List Char × Nat)) (w : List Char),
      map_find (l.foldl count_step m) w =
        match map_find m w with
        | some c => some (c + l.count w)
        | none => if w ∈ l then some (l.count w) else none := by
  induction l with
  | nil =>
    intro m w
    cases hf : map_find m w <;> simp [hf]
  | cons t rest ih =>
    intro m w
    rw [List.foldl_cons, ih]
    by_cases hw : w = t
    · subst hw
      have hstep : map_find (count_step m w) w =
          some (match map_find m w with
                | some c => 1 + c
                | none => 1) := by
        unfold count_step
        exact map_find_store_self ..
      cases hf : map_find m w <;>
        simp [hstep, hf, List.count_cons, Nat.add_comm, Nat.add_assoc, Nat.add_left_comm]
    · have hne : map_find (count_step m t) w = map_find m w := by
        unfold count_step
        exact map_find_store_ne _ _ _ _ hw
      rw [hne]
      have hcount : (t :: rest).count w = rest.count w := by
        simp [List.count_cons, hw]
      have hmem : (w ∈ t :: rest) = (w ∈ rest) := by
        simp [List.mem_cons, hw]
      cases hf : map_find m w <;> simp [hf, hcount, hmem]

/-- Lookup in the finished counts map: the number of occurrences in the
collection, present exactly for the collection's members. -/
lemma count_occurrences_find (l : List (List Char)) (w : List Char) :
    map_find (count_occurrences l) w =
      if w ∈ l then some (l.count w) else none := by
  unfold count_occurrences
  rw [count_step_foldl_find]
  simp [map_find]

/-- The keys of the counts map are distinct. -/
lemma count_occurrences_keys_nodup (l : List (List Char)) :
    ((count_occurrences l).map Prod.fst).Nodup := by
  unfold count_occurrences
  suffices h : ∀ m : List (List Char × Nat), (m.map Prod.fst).Nodup →
      ((l.foldl count_step m).map Prod.fst).Nodup by
    exact h [] (by simp)
  induction l with
  | nil => intro m hm; simpa using hm
  | cons t rest ih =>
    intro m hm
    rw [List.foldl_cons]
    exact ih _ (nodup_keys_map_store _ _ _ hm)

/-- With distinct keys, association-list membership coincides with
lookup. -/
lemma mem_iff_map_find (m : List (List Char × Nat)) (h : (m.map Prod.fst).Nodup)
    (w : List Char) (c : Nat) :
    (w, c) ∈ m ↔ map_find m w = some c := by
  induction m with
  | nil => simp [map_find]
  | cons e rest ih =>
    obtain ⟨k, x⟩ := e
    simp only [List.map_cons, List.nodup_cons] at h
    by_cases hk : k = w
    · subst hk
      have hfind : map_find ((k, x) :: rest) k = some x := by simp [map_find]
      rw [hfind]
      simp only [List.mem_cons, Prod.mk.injEq, Option.some.injEq]
      constructor
      · rintro (⟨-, hx⟩ | hmem)
        · exact hx.symm
        · exact absurd (List.mem_map_of_mem Prod.fst hmem) h.1
      · intro hx
        exact Or.inl ⟨trivial, hx.symm⟩
    · have hfind : map_find ((k, x) :: rest) w = map_find rest w := by
        simp [map_find, hk]
      rw [hfind, ← ih h.2]
      simp only [List.mem_cons, Prod.mk.injEq]
      constructor
      · rintro (⟨hw, -⟩ | hmem)
        · exact absurd hw.symm hk
        · exact hmem
      · exact Or.inr

/-- Every entry of the counts map records the exact positive occurrence
count of its word. -/
lemma count_occurrences_entry (l : List (List Char)) (w : List Char) (c : Nat)
    (h : (w, c) ∈ count_occurrences l) :
    c = l.count w ∧ 1 ≤ c := by
  rw [mem_iff_map_find _ (count_occurrences_keys_nodup l)] at h
  rw [count_occurrences_find] at h
  by_cases hm : w ∈ l
  · rw [if_pos hm] at h
    obtain rfl : l.count w = c := Option.some.injEq .. ▸ (by simpa using h)
    exact ⟨rfl, List.one_le_count_iff.mpr hm⟩
  · rw [if_neg hm] at h
    cases h

/-! ## Lemmas on stage 3: searching and segment sorting -/

lemma find_first_of_cons_eq (p : count_pair_t) (l : List count_pair_t) (n : Nat)
    (h : p.1 = n) : find_first_of (p :: l) n = some 0 := by
  simp [find_first_of, h]

lemma find_first_of_append (A B : List count_pair_t) (n : Nat)
    (hA : ∀ p ∈ A, p.1 ≠ n) :
    find_first_of (A ++ B) n = (find_first_of B n).map (A.length + ·) := by
  induction A with
  | nil =>
    cases h : find_first_of B n <;> simp [h]
  | cons p A ih =>
    have hp : ¬(p.1 = n) := hA p (List.mem_cons_self ..)
    rw [List.cons_append, find_first_of, if_neg hp,
      ih (fun q hq => hA q (List.mem_cons_of_mem _ hq))]
    cases h : find_first_of B n
    · simp [h]
    · simp [h]
      omega

lemma find_last_of_eq_none (B : List count_pair_t) (n : Nat)
    (h : ∀ p ∈ B, p.1 ≠ n) : find_last_of B n = none := by
  induction B with
  | nil => rfl
  | cons p B ih =>
    rw [find_last_of, ih (fun q hq => h q (List.mem_cons_of_mem _ hq))]
    simp [h p (List.mem_cons_self ..)]

lemma find_last_of_append_none (A B : List count_pair_t) (n : Nat)
    (hB : find_last_of B n = none) :
    find_last_of (A ++ B) n = find_last_of A n := by
  induction A with
  | nil => simpa using hB
  | cons p A ih =>
    rw [List.cons_append, find_last_of, ih, find_last_of]

lemma find_last_of_all_eq (A : List count_pair_t) (n : Nat)
    (hne : A ≠ []) (h : ∀ p ∈ A, p.1 = n) :
    find_last_of A n = some (A.length - 1) := by
  induction A with
  | nil => exact absurd rfl hne
  | cons p A ih =>
    by_cases hA : A = []
    · subst hA
      simp [find_last_of, h p (List.mem_cons_self ..)]
    · rw [find_last_of, ih hA (fun q hq => h q (List.mem_cons_of_mem _ hq))]
      have : A.length ≠ 0 := fun hl => hA (List.eq_nil_of_length_eq_zero hl)
      simp only [List.length_cons]
      congr 1
      omega

lemma sort_segment_spec (G M R : List count_pair_t) :
    sort_segment (G ++ M ++ R) G.length (G.length + M.length) =
      G ++ List.insertionSort word_le M ++ R := by
  unfold sort_segment
  have h1 : (G ++ M ++ R).take G.length = G := by
    rw [List.append_assoc, List.take_append_of_le_length (le_refl _), List.take_length]
  have h2 : (G ++ M ++ R).drop G.length = M ++ R := by
    rw [List.append_assoc, List.drop_append_of_le_length (le_refl _), List.drop_length,
      List.nil_append]
  have h3 : (G ++ M ++ R).drop (G.length + M.length) = R := by
    rw [← List.drop_drop, h2, List.drop_append_of_le_length (le_refl _),
      List.drop_length, List.nil_append]
  rw [h1, h2, h3]
  have h4 : G.length + M.length - G.length = M.length := by omega
  rw [h4, List.take_append_of_le_length (le_refl _), List.take_length]

/-- Sorting a run of equal-count pairs by word, followed by the two-key
sort of strictly smaller-count pairs, is exactly the two-key sort of
their concatenation. -/
lemma insertionSort_run_append (n : Nat) (run R₂ : List count_pair_t)
    (hrun : ∀ p ∈ run, p.1 = n) (hR₂ : ∀ p ∈ R₂, p.1 < n) :
    List.insertionSort word_le run ++ List.insertionSort two_key_le R₂ =
      List.insertionSort two_key_le (run ++ R₂) := by
  apply List.eq_of_perm_of_sorted (r := two_key_le)
  · exact ((List.perm_insertionSort word_le run).append
      (List.perm_insertionSort two_key_le R₂)).trans
      (List.perm_insertionSort two_key_le (run ++ R₂)).symm
  · rw [List.Sorted, List.pairwise_append]
    refine ⟨?_, List.sorted_insertionSort two_key_le R₂, ?_⟩
    · refine List.Pairwise.imp_of_mem ?_ (List.sorted_insertionSort word_le run)
      intro a b ha hb hab
      have han := hrun a ((List.perm_insertionSort word_le run).subset ha)
      have hbn := hrun b ((List.perm_insertionSort word_le run).subset hb)
      exact Or.inr ⟨han.trans hbn.symm, hab⟩
    · intro a ha b hb
      have han := hrun a ((List.perm_insertionSort word_le run).subset ha)
      have hbn := hR₂ b ((List.perm_insertionSort two_key_le R₂).subset hb)
      exact Or.inl (by omega)
  · exact List.sorted_insertionSort two_key_le (run ++ R₂)

/-- The head of a `dropWhile` result fails the predicate. -/
lemma dropWhile_head_false {α : Type} (p : α → Bool) (l : List α) (x : α)
    (t : List α) (h : List.dropWhile p l = x :: t) : p x = false := by
  induction l with
  | nil => cases h
  | cons a l ih =>
    rw [List.dropWhile_cons] at h
    by_cases hp : p a
    · rw [if_pos hp] at h
      exact ih h
    · rw [if_neg hp] at h
      cases h
      simpa using hp

/-- Main loop lemma.  Running the grouped re-sort loop over a strictly
descending list of counts `cs`, on a vector made of an already-finalized
prefix `G` (whose counts are all larger than every count in `cs`)
followed by a count-sorted suffix `R` whose counts are exactly the
members of `cs`, with the cursor anywhere inside `G`, finishes the whole
vector: the suffix ends up two-key sorted, the break branch is never
taken, and both counters advance by exactly the number of distinct
counts. -/
lemma group_sort_loop_spec (cs : List Nat) :
    ∀ (G R : List count_pair_t) (current check_count sub_rng_count : Nat),
      R.Pairwise count_ge →
      cs.Pairwise (fun a b => b < a) →
      (∀ p ∈ R, p.1 ∈ cs) →
      (∀ n ∈ cs, ∃ p ∈ R, p.1 = n) →
      (∀ p ∈ G, ∀ n ∈ cs, n < p.1) →
      current ≤ G.length →
      group_sort_loop cs (G ++ R) current check_count sub_rng_count =
        (G ++ List.insertionSort two_key_le R, check_count + cs.length,
          sub_rng_count + cs.length) := by
  induction cs with
  | nil =>
    intro G R current check_count sub_rng_count h1 h2 h3 h4 h5 h6
    have hR : R = [] :=
      List.eq_nil_iff_forall_not_mem.mpr (fun p hp => by simpa using h3 p hp)
    subst hR
    simp [group_sort_loop, List.insertionSort]
  | cons n rest ih =>
    intro G R current check_count sub_rng_count h1 h2 h3 h4 h5 h6
    -- the suffix starts with a pair of count `n`
    obtain ⟨p0, hp0R, hp0n⟩ := h4 n (List.mem_cons_self ..)
    obtain ⟨q, R', rfl⟩ : ∃ q R', R = q :: R' := by
      cases R with
      | nil => exact absurd hp0R (List.not_mem_nil _)
      | cons q R' => exact ⟨q, R', rfl⟩
    have hqn : q.1 = n := by
      rcases List.mem_cons.mp hp0R with rfl | hmem
      · exact hp0n
      · have hle : p0.1 ≤ q.1 := List.rel_of_pairwise_cons h1 hmem
        rcases List.mem_cons.mp (h3 q (List.mem_cons_self ..)) with he | hmem2
        · exact he
        · have : q.1 < n := List.rel_of_pairwise_cons h2 hmem2
          omega
    -- split the suffix into the run of count `n` and the strictly
    -- smaller-count remainder
    have hsplit : (q :: R').takeWhile (fun p => p.1 == n) ++
        (q :: R').dropWhile (fun p => p.1 == n) = q :: R' :=
      List.takeWhile_append_dropWhile ..
    set run := (q :: R').takeWhile (fun p => p.1 == n) with hrun_def
    set R₂ := (q :: R').dropWhile (fun p => p.1 == n) with hR₂_def
    have hrun_counts : ∀ p ∈ run, p.1 = n := by
      intro p hp
      simpa using List.mem_takeWhile_imp hp
    have hrun_cons : run = q :: R'.takeWhile (fun p => p.1 == n) := by
      rw [hrun_def, List.takeWhile_cons, if_pos (by simpa using hqn)]
    have hrun_len : 1 ≤ run.length := by
      rw [hrun_cons]
      simp
    have hR₂_pairwise : R₂.Pairwise count_ge :=
      List.Pairwise.sublist (List.dropWhile_sublist _) h1
    have hR₂_subset : ∀ p ∈ R₂, p ∈ q :: R' :=
      fun p hp => (List.dropWhile_sublist (fun p => p.1 == n)).subset hp
    have hR₂_lt : ∀ p ∈ R₂, p.1 < n := by
      cases hc : R₂ with
      | nil =>
        intro p hp
        exact absurd hp (List.not_mem_nil p)
      | cons q₂ t =>
        have hq₂ : (q₂.1 == n) = false :=
          dropWhile_head_false _ (q :: R') q₂ t (by rw [← hR₂_def]; exact hc)
        have hq₂_mem : q₂ ∈ q :: R' :=
          hR₂_subset q₂ (by rw [hc]; exact List.mem_cons_self ..)
        have hq₂n : q₂.1 ≠ n := by simpa using hq₂
        have hq₂lt : q₂.1 < n := by
          rcases List.mem_cons.mp (h3 q₂ hq₂_mem) with he | hm2
          · exact absurd he hq₂n
          · exact List.rel_of_pairwise_cons h2 hm2
        intro p hp
        rcases List.mem_cons.mp hp with rfl | hpt
        · exact hq₂lt
        · have hpw : List.Pairwise count_ge (q₂ :: t) := by
            rw [← hc]
            exact hR₂_pairwise
          have hle : p.1 ≤ q₂.1 := List.rel_of_pairwise_cons hpw hpt
          omega
    -- the remaining counts occur exactly in the remainder
    have hR₂_counts_mem : ∀ p ∈ R₂, p.1 ∈ rest := by
      intro p hp
      rcases List.mem_cons.mp (h3 p (hR₂_subset p hp)) with he | hmem2
      · exact absurd he (Nat.ne_of_lt (hR₂_lt p hp))
      · exact hmem2
    have hR₂_counts_exist : ∀ m ∈ rest, ∃ p ∈ R₂, p.1 = m := by
      intro m hm
      obtain ⟨p, hpR, hpm⟩ := h4 m (List.mem_cons_of_mem _ hm)
      have hmn : m < n := List.rel_of_pairwise_cons h2 hm
      rw [← hsplit] at hpR
      rcases List.mem_append.mp hpR with hpr | hpr
      · exact absurd (hpm ▸ hrun_counts p hpr) (Nat.ne_of_lt hmn)
      · exact ⟨p, hpr, hpm⟩
    -- evaluate the two searches
    have hfirst : find_first_from (G ++ (q :: R')) current n = some G.length := by
      unfold find_first_from
      rw [List.drop_append_of_le_length h6,
        find_first_of_append _ _ _
          (fun p hp => Nat.ne_of_gt
            (h5 p (List.mem_of_mem_drop hp) n (List.mem_cons_self ..))),
        find_first_of_cons_eq _ _ _ hqn]
      simp [List.length_drop]
      omega
    have hend : find_end_from (G ++ (q :: R')) G.length n =
        some (G.length + (run.length - 1)) := by
      unfold find_end_from
      rw [List.drop_left, ← hsplit,
        find_last_of_append_none _ _ _
          (find_last_of_eq_none _ _ (fun p hp => Nat.ne_of_lt (hR₂_lt p hp))),
        find_last_of_all_eq run n (by rw [hrun_cons]; exact List.cons_ne_nil _ _)
          hrun_counts]
      rfl
    -- one unfolding of the loop
    rw [show G ++ (q :: R') = G ++ run ++ R₂ by
      rw [List.append_assoc, hsplit]] at hfirst hend ⊢
    simp only [group_sort_loop, hfirst, hend]
    have hstop : G.length + (run.length - 1) + 1 = G.length + run.length := by
      omega
    rw [hstop, sort_segment_spec]
    -- recurse via the induction hypothesis
    have hrec := ih (G ++ List.insertionSort word_le run) R₂
      (G.length + (run.length - 1)) (check_count + 1) (sub_rng_count + 1)
      hR₂_pairwise h2.of_cons hR₂_counts_mem hR₂_counts_exist
      (by
        intro p hp m hm
        rcases List.mem_append.mp hp with hpG | hpr
        · exact h5 p hpG m (List.mem_cons_of_mem _ hm)
        · have hpn : p.1 = n :=
            hrun_counts p ((List.perm_insertionSort word_le run).subset hpr)
          have : m < n := List.rel_of_pairwise_cons h2 hm
          omega)
      (by
        rw [List.length_append, List.length_insertionSort]
        omega)
    rw [hrec, List.append_assoc,
      insertionSort_run_append n run R₂ hrun_counts hR₂_lt, hsplit]
    simp only [Prod.mk.injEq, List.length_cons]
    exact ⟨trivial, by omega, by omega⟩

/-- The distinct counts, descending, form a strictly decreasing list. -/
lemma just_counts_rng_pairwise (pairs : List count_pair_t) :
    (just_counts_rng pairs).Pairwise (fun a b => b < a) := by
  rw [just_counts_rng, List.pairwise_reverse]
  have hsorted : (just_counts pairs).Pairwise (fun a b => a ≤ b) :=
    List.sorted_insertionSort _ _
  have hnodup : (just_counts pairs).Nodup :=
    (List.perm_insertionSort _ _).nodup_iff.mpr (List.nodup_dedup _)
  exact (hsorted.and hnodup).imp fun h => lt_of_le_of_ne h.1 h.2

/-- Membership in the descending distinct-count list is membership among
the pair counts. -/
lemma mem_just_counts_rng (pairs : List count_pair_t) (m : Nat) :
    m ∈ just_counts_rng pairs ↔ m ∈ pairs.map Prod.fst := by
  rw [just_counts_rng, List.mem_reverse, just_counts,
    (List.perm_insertionSort _ _).mem_iff, List.mem_dedup]

/-- The whole of stage 3 produces the two-key sorted pair sequence, and
both loop counters finish at the number of distinct counts. -/
lemma grouped_sort_eq (pairs : List count_pair_t) :
    grouped_sort pairs =
      (List.insertionSort two_key_le pairs, (just_counts pairs).length,
        (just_counts pairs).length) := by
  unfold grouped_sort
  have h := group_sort_loop_spec (just_counts_rng pairs) []
    (List.insertionSort count_ge pairs) 0 0 0
    (List.sorted_insertionSort count_ge pairs)
    (just_counts_rng_pairwise pairs)
    (fun p hp => (mem_just_counts_rng pairs p.1).mpr
      (List.mem_map_of_mem Prod.fst ((List.perm_insertionSort count_ge pairs).subset hp)))
    (fun n hn => by
      obtain ⟨p, hp, hpn⟩ := List.mem_map.mp ((mem_just_counts_rng pairs n).mp hn)
      exact ⟨p, (List.perm_insertionSort count_ge pairs).mem_iff.mpr hp, hpn⟩)
    (fun p hp => absurd hp (List.not_mem_nil p))
    (Nat.le_refl 0)
  simp only [List.nil_append, Nat.zero_add] at h
  rw [h]
  have hlen : (just_counts_rng pairs).length = (just_counts pairs).length := by
    rw [just_counts_rng, List.length_reverse]
  have hsort : List.insertionSort two_key_le (List.insertionSort count_ge pairs) =
      List.insertionSort two_key_le pairs :=
    List.eq_of_perm_of_sorted
      ((List.perm_insertionSort two_key_le _).trans
        ((List.perm_insertionSort count_ge pairs).trans
          (List.perm_insertionSort two_key_le pairs).symm))
      (List.sorted_insertionSort ..) (List.sorted_insertionSort ..)
  rw [hsort, hlen]

/-- The printed pair sequence is the two-key sort of the flipped map
entries. -/
lemma primary_pairs_eq (tokens : List (List Char)) :
    primary_pairs tokens = List.insertionSort two_key_le (count_pairs_of tokens) := by
  unfold primary_pairs
  rw [grouped_sort_eq]

/-- **C4.** For every word-to-count mapping, the grouped in-place re-sort
(sort by descending count, then sort each contiguous equal-count run by
ascending word, largest count first) produces exactly the final sequence
of a single sort under the two-key comparator "count descending, then
word ascending". -/
theorem C4_grouped_resort_equals_two_key_sort :
    ∀ m : List (List Char × Nat),
      (grouped_sort (m.map flip_pair)).1 =
        List.insertionSort two_key_le (m.map flip_pair) := by
  intro m
  rw [grouped_sort_eq]

/-- **C10.** For every input, the grouped re-sort loop never takes its
not-found break branch: at loop exit `check_count` and `sub_rng_count`
both equal the number of distinct count values (a taken break would end
the loop with `sub_rng_count` strictly below `check_count` and both below
the distinct-count total). -/
theorem C10_loop_counters (tokens : List (List Char)) :
    (grouped_sort (count_pairs_of tokens)).2.1 =
        ((count_pairs_of tokens).map Prod.fst).dedup.length ∧
      (grouped_sort (count_pairs_of tokens)).2.2 =
        ((count_pairs_of tokens).map Prod.fst).dedup.length := by
  rw [grouped_sort_eq]
  constructor <;> simp [just_counts, List.length_insertionSort]

/-- **C2.** For every input, consecutive primary-output lines have
non-increasing counts, and when two consecutive counts are equal the
earlier word is lexically at most the later word. -/
theorem C2_output_ordering (tokens : List (List Char)) :
    List.Chain' (fun a b : count_pair_t => b.1 ≤ a.1 ∧ (a.1 = b.1 → a.2 ≤ b.2))
      (primary_pairs tokens) := by
  rw [primary_pairs_eq]
  refine List.Pairwise.chain'
    ((List.sorted_insertionSort two_key_le (count_pairs_of tokens)).imp ?_)
  rintro a b (hlt | ⟨he, hw⟩)
  · exact ⟨le_of_lt hlt, fun heq => by omega⟩
  · exact ⟨le_of_eq he.symm, fun _ => hw⟩

/-- **C1.** For every input and every printed pair, the printed count is
exactly the number of occurrences of the printed (case-folded) word in
the filtered, normalized token sequence, and it is at least 1. -/
theorem C1_printed_counts_correct (tokens : List (List Char)) (c : Nat)
    (w : List Char) (h : (c, w) ∈ primary_pairs tokens) :
    c = (words_of tokens).count w ∧ 1 ≤ c := by
  rw [primary_pairs_eq] at h
  have h2 : (c, w) ∈ count_pairs_of tokens :=
    (List.perm_insertionSort _ _).subset h
  unfold count_pairs_of at h2
  obtain ⟨⟨w', c'⟩, hmem, hflip⟩ := List.mem_map.mp h2
  obtain ⟨rfl, rfl⟩ : c' = c ∧ w' = w := by
    simpa [flip_pair, Prod.ext_iff] using hflip
  exact count_occurrences_entry _ _ _ hmem

/-- Witness for C1 at a concrete input. -/
theorem C1_witness :
    ((2, str "b") ∈ primary_pairs demo_tokens) ∧
      (2 = (words_of demo_tokens).count (str "b") ∧ 1 ≤ 2) :=
  ⟨by decide, C1_printed_counts_correct demo_tokens 2 (str "b") (by decide)⟩

/-- **C5.** For every input, no word appears on two different primary
output lines. -/
theorem C5_output_words_unique (tokens : List (List Char)) :
    ((primary_pairs tokens).map Prod.snd).Nodup := by
  rw [primary_pairs_eq]
  have hperm : (List.insertionSort two_key_le (count_pairs_of tokens)).map Prod.snd
      |>.Perm ((count_pairs_of tokens).map Prod.snd) :=
    (List.perm_insertionSort _ _).map _
  refine hperm.nodup_iff.mpr ?_
  unfold count_pairs_of
  rw [List.map_map]
  exact count_occurrences_keys_nodup (words_of tokens)

/-- **C6.** The primary output is independent of the enumeration order of
the unordered word-to-count map: any enumeration (any permutation of the
map's entries) fed into the downstream stages produces the very output
the program prints, so two runs on identical input are byte-identical
even though the hash map imposes no ordering. -/
theorem C6_output_deterministic (tokens : List (List Char))
    (m : List (List Char × Nat)) (h : m.Perm (counts_map tokens)) :
    report_from_map m = primary_output tokens := by
  unfold report_from_map primary_output
  rw [primary_pairs_eq, grouped_sort_eq]
  congr 1
  exact List.eq_of_perm_of_sorted
    ((List.perm_insertionSort two_key_le _).trans
      ((h.map flip_pair).trans (List.perm_insertionSort two_key_le _).symm))
    (List.sorted_insertionSort ..) (List.sorted_insertionSort ..)

/-- Witness for C6 at a concrete input: the reversed map enumeration. -/
theorem C6_witness :
    ((counts_map demo_tokens).reverse.Perm (counts_map demo_tokens)) ∧
      report_from_map ((counts_map demo_tokens).reverse) =
        primary_output demo_tokens :=
  ⟨List.reverse_perm _,
    C6_output_deterministic demo_tokens _ (List.reverse_perm _)⟩

/-- **C9.** When every token is rejected (in particular on empty input)
the primary output is empty, and the exit status is 0 on every normal
completion. -/
theorem C9_empty_output_and_exit_zero (tokens : List (List Char)) :
    ((tokens.filter is_alpha_word) = [] → main_result tokens = ([], 0)) ∧
      (main_result tokens).2 = 0 := by
  refine ⟨?_, rfl⟩
  intro h
  have hw : words_of tokens = [] := by
    rw [words_of_eq, h]
    rfl
  unfold main_result primary_output primary_pairs count_pairs_of counts_map
  rw [hw]
  rfl

/-- Witness for C9 at the concrete empty input. -/
theorem C9_witness :
    (([] : List (List Char)).filter is_alpha_word = []) ∧
      main_result [] = ([], 0) ∧ (main_result []).2 = 0 :=
  ⟨rfl, (C9_empty_output_and_exit_zero []).1 rfl,
    (C9_empty_output_and_exit_zero []).2⟩

/-- Removing adjacent duplicates never changes membership. -/
lemma mem_dedup_adjacent (l : List (List Char)) (a : List Char) :
    a ∈ dedup_adjacent l ↔ a ∈ l := by
  induction l using dedup_adjacent.induct with
  | case1 => simp [dedup_adjacent]
  | case2 x => simp [dedup_adjacent]
  | case3 x rest ih =>
    simp only [dedup_adjacent, eq_self_iff_true, if_true]
    rw [ih]
    simp only [List.mem_cons]
    tauto
  | case4 x y rest hne ih =>
    simp only [dedup_adjacent, if_neg hne]
    simp only [List.mem_cons] at ih ⊢
    rw [ih]

/-- On a list sorted non-strictly, removing adjacent duplicates yields a
strictly sorted list. -/
lemma dedup_adjacent_pairwise (l : List (List Char)) :
    l.Pairwise (fun a b => a ≤ b) →
      (dedup_adjacent l).Pairwise (fun a b => a < b) := by
  induction l using dedup_adjacent.induct with
  | case1 => intro h; simp [dedup_adjacent]
  | case2 x => intro h; simp [dedup_adjacent]
  | case3 x rest ih =>
    intro h
    simp only [dedup_adjacent, eq_self_iff_true, if_true]
    exact ih h.of_cons
  | case4 x y rest hne ih =>
    intro h
    simp only [dedup_adjacent, if_neg hne]
    rw [List.pairwise_cons]
    refine ⟨?_, ih h.of_cons⟩
    intro z hz
    have hz2 : z ∈ y :: rest := (mem_dedup_adjacent _ _).mp hz
    have hxy : x ≤ y := (List.pairwise_cons.mp h).1 y (List.mem_cons_self ..)
    have hxylt : x < y := lt_of_le_of_ne hxy hne
    rcases List.mem_cons.mp hz2 with rfl | hzr
    · exact hxylt
    · have hyz : z ≥ y := (List.pairwise_cons.mp h.of_cons).1 z hzr
      exact lt_of_lt_of_le hxylt hyz

/-- **C8.** The diagnostic word list is strictly sorted in ascending
lexical order and contains exactly the distinct accepted case-folded
words of the input: it is the normalized word sequence sorted with
adjacent duplicates removed. -/
theorem C8_diagnostic_word_list (tokens : List (List Char)) :
    (diagnostic_words tokens).Pairwise (fun a b : List Char => a < b) ∧
      ∀ w, w ∈ diagnostic_words tokens ↔ w ∈ words_of tokens := by
  constructor
  · exact dedup_adjacent_pairwise _ (List.sorted_insertionSort _ _)
  · intro w
    rw [diagnostic_words, mem_dedup_adjacent]
    exact (List.perm_insertionSort _ _).mem_iff

/-! ## The spec's concrete scenarios (§8), replayed end to end -/

example : primary_output [str "The", str "the", str "fox", str "FOX", str "fox"] =
    [str "3: fox", str "2: the"] := by decide

example : primary_output [str "a", str "b", str "c", str "a", str "b", str "a"] =
    [str "3: a", str "2: b", str "1: c"] := by decide

example : primary_output [] = [] := by decide

example : diagnostic_words [str "The", str "the", str "fox", str "FOX", str "fox"] =
    [str "fox", str "the"] := by decide
